import Mathlib

/-!
Verification of the prediction-arbs repository: a shallow embedding of the
fee model, the arbitrage scorer, the snapshot merge store, the similarity
match loop and the two paginated collection loops, with theorems settling
the specification claims.

Numeric values computed by the Python code with floats are embedded as exact
rationals (ℚ); integer timestamps are embedded as ℕ.
-/

namespace PredArbs

/-- The fee formula of `kalshi_fee` from src/utils.py
(`math.ceil(0.07 * num_contracts * price * (1 - price) * 100) / 100.0`)
embedded over exact rationals — the documented intent of the routine (its
docstring: fee `rounded up to next cent` by the formula
`ceil(0.07 * C * P * (1-P))`).  The source evaluates the product in IEEE
binary64 doubles, which deviates from this exact value at some inputs:
the double model is `isNearestF64`/`kalshiFeeF64Cents` below, and the
C2/C3/C8 theorems prove the deviations.  Claims that are insensitive to the
float-vs-exact distinction are settled against this exact embedding. -/
def kalshi_fee (price : ℚ) (num_contracts : ℚ) : ℚ :=
  (⌈(0.07 : ℚ) * num_contracts * price * (1 - price) * 100⌉ : ℤ) / 100

/-- The fee formula in the specification's words:
`fee(price, contracts) = ceil(0.07 · contracts · price · (1 − price) · 100) / 100`.
Stated separately so the code's fee can be compared against it. -/
def specFee (price : ℚ) (contracts : ℚ) : ℚ :=
  (⌈(0.07 : ℚ) * contracts * price * (1 - price) * 100⌉ : ℤ) / 100

/-- A Kalshi market record, keeping the fields the claims are about.
Prices are integer cents in the venue's JSON, embedded as ℚ; optional
fields (absent dictionary keys) are `Option`. -/
structure KMarket where
  ticker : String
  title : String
  yes_ask : Option ℚ
  no_ask : Option ℚ
  expiration_time : Option ℕ
  deriving DecidableEq, Repr

/-- A Polymarket market record, keeping the fields the claims are about.
`outcomePrices` embeds the parsed two-element `[yes, no]` price array. -/
structure PMarket where
  id : String
  question : String
  endDate : Option ℕ
  outcomePrices : Option (ℚ × ℚ)
  deriving DecidableEq, Repr

/-- An arbitrage opportunity row, as assembled in
`calculate_arbitrage_opportunities` (src/utils.py lines 111-126). -/
structure Opportunity where
  kalshi_market : String
  poly_market : String
  similarity_score : ℚ
  kalshi_yes_poly_no_arb : ℚ
  kalshi_no_poly_yes_arb : ℚ
  kalshi_yes_price : ℚ
  kalshi_no_price : ℚ
  poly_yes_price : ℚ
  poly_no_price : ℚ
  kalshi_yes_fee : ℚ
  kalshi_no_fee : ℚ
  expiration_date : ℕ
  kalshi_id : String
  poly_id : String
  deriving DecidableEq, Repr

/-- `kalshi_market.get('yes_ask', 0) / 100` (src/utils.py line 90). -/
def kalshiYesPrice (k : KMarket) : ℚ := k.yes_ask.getD 0 / 100

/-- `kalshi_market.get('no_ask', 0) / 100` (src/utils.py line 91). -/
def kalshiNoPrice (k : KMarket) : ℚ := k.no_ask.getD 0 / 100

/-- `kalshi_fee(kalshi_yes_price, 100) / 100` (src/utils.py line 97). -/
def kalshiYesFee (k : KMarket) : ℚ := kalshi_fee (kalshiYesPrice k) 100 / 100

/-- `kalshi_fee(kalshi_no_price, 100) / 100` (src/utils.py line 98). -/
def kalshiNoFee (k : KMarket) : ℚ := kalshi_fee (kalshiNoPrice k) 100 / 100

/-- `strat1_cost = kalshi_yes_price + kalshi_yes_fee + poly_no_price`
(src/utils.py line 100). -/
def strat1Cost (k : KMarket) (poly_no_price : ℚ) : ℚ :=
  kalshiYesPrice k + kalshiYesFee k + poly_no_price

/-- `strat1_arb = 1 - strat1_cost if strat1_cost < 1 else 0`
(src/utils.py line 101). -/
def strat1Arb (k : KMarket) (poly_no_price : ℚ) : ℚ :=
  if strat1Cost k poly_no_price < 1 then 1 - strat1Cost k poly_no_price else 0

/-- `strat2_cost = kalshi_no_price + kalshi_no_fee + poly_yes_price`
(src/utils.py line 103). -/
def strat2Cost (k : KMarket) (poly_yes_price : ℚ) : ℚ :=
  kalshiNoPrice k + kalshiNoFee k + poly_yes_price

/-- `strat2_arb = 1 - strat2_cost if strat2_cost < 1 else 0`
(src/utils.py line 104). -/
def strat2Arb (k : KMarket) (poly_yes_price : ℚ) : ℚ :=
  if strat2Cost k poly_yes_price < 1 then 1 - strat2Cost k poly_yes_price else 0

/-- The body of the `for` loop of `calculate_arbitrage_opportunities`
(src/utils.py lines 79-126) on one similar pair: `none` when the pair is
skipped by the required-field check or fails the positive-margin filter,
`some` of the appended opportunity row otherwise. -/
def processPair (kalshi_market : KMarket) (poly_market : PMarket)
    (similarity : ℚ) : Option Opportunity :=
  match kalshi_market.expiration_time, poly_market.endDate,
      poly_market.outcomePrices with
  | some kalshi_exp, some poly_exp, some (poly_yes_price, poly_no_price) =>
    if 0 < strat1Arb kalshi_market poly_no_price ∨
        0 < strat2Arb kalshi_market poly_yes_price then
      some {
        kalshi_market := kalshi_market.title
        poly_market := poly_market.question
        similarity_score := similarity
        kalshi_yes_poly_no_arb := strat1Arb kalshi_market poly_no_price
        kalshi_no_poly_yes_arb := strat2Arb kalshi_market poly_yes_price
        kalshi_yes_price := kalshiYesPrice kalshi_market
        kalshi_no_price := kalshiNoPrice kalshi_market
        poly_yes_price := poly_yes_price
        poly_no_price := poly_no_price
        kalshi_yes_fee := kalshiYesFee kalshi_market
        kalshi_no_fee := kalshiNoFee kalshi_market
        expiration_date := min kalshi_exp poly_exp
        kalshi_id := kalshi_market.ticker
        poly_id := poly_market.id }
    else none
  | _, _, _ => none

/-- `calculate_arbitrage_opportunities` (src/utils.py lines 75-132). -/
def calculate_arbitrage_opportunities
    (similar_pairs : List (KMarket × PMarket × ℚ)) : List Opportunity :=
  similar_pairs.filterMap fun p => processPair p.1 p.2.1 p.2.2

/-- Deduplication keeping the first occurrence of each key, preserving order:
`seen` is the set of keys already kept.  This is the semantics of polars
`df.unique(subset, maintain_order=True)` used by both `_save_markets`
methods. -/
def dedupFirstByAux {α κ : Type} [DecidableEq κ] (key : α → κ) (seen : List κ) :
    List α → List α
  | [] => []
  | x :: xs =>
    if key x ∈ seen then dedupFirstByAux key seen xs
    else x :: dedupFirstByAux key (key x :: seen) xs

/-- Order-preserving first-occurrence deduplication by a key. -/
def dedupFirstBy {α κ : Type} [DecidableEq κ] (key : α → κ) (l : List α) : List α :=
  dedupFirstByAux key [] l

/-- `KalshiClient._save_markets` (src/data/kalshi.py lines 43-61) as a pure
merge: `all_markets = existing_markets + markets` then
`df.unique(subset=['ticker'], maintain_order=True)` — deduplication by the
`ticker` key, first occurrence kept.  The loaded `existing_markets` snapshot
is a parameter; the function returns the list written back to disk. -/
def kalshi_save_markets (existing_markets markets : List KMarket) : List KMarket :=
  dedupFirstBy KMarket.ticker (existing_markets ++ markets)

/-- `PolymarketClient._save_markets` (src/data/polymarket.py lines 44-60) as a
pure merge: `all_markets = existing_markets + markets` then
`df.unique(maintain_order=True)` — note: no `subset`, so polars deduplicates
by the WHOLE ROW (every field), not by the `id` key. -/
def poly_save_markets (existing_markets markets : List PMarket) : List PMarket :=
  dedupFirstBy (fun m => m) (existing_markets ++ markets)

/-- The inner `for j, poly_market in enumerate(poly_markets)` loop of
`find_similar_markets` (src/utils.py lines 69-71): appends
`(kalshi_market, poly_market, similarities[i, j])` whenever
`similarities[i, j] >= similarity_threshold`.  `sims` abstracts the dense
cosine-similarity matrix computed by the external sklearn library. -/
def findSimilarInner (sims : ℕ → ℕ → ℚ) (similarity_threshold : ℚ)
    (kalshi_market : KMarket) (i : ℕ) :
    ℕ → List PMarket → List (KMarket × PMarket × ℚ)
  | _, [] => []
  | j, poly_market :: rest =>
    (if similarity_threshold ≤ sims i j then [(kalshi_market, poly_market, sims i j)]
      else []) ++
      findSimilarInner sims similarity_threshold kalshi_market i (j + 1) rest

/-- The outer `for i, kalshi_market in enumerate(kalshi_markets)` loop of
`find_similar_markets` (src/utils.py lines 68-71). -/
def findSimilarOuter (sims : ℕ → ℕ → ℚ) (similarity_threshold : ℚ)
    (poly_markets : List PMarket) :
    ℕ → List KMarket → List (KMarket × PMarket × ℚ)
  | _, [] => []
  | i, kalshi_market :: rest =>
    findSimilarInner sims similarity_threshold kalshi_market i 0 poly_markets ++
      findSimilarOuter sims similarity_threshold poly_markets (i + 1) rest

/-- `find_similar_markets` (src/utils.py lines 49-73), with the TF-IDF
cosine-similarity matrix `sims` (computed by the external sklearn library)
abstracted as a function of the two record indices. -/
def find_similar_markets (kalshi_markets : List KMarket) (poly_markets : List PMarket)
    (sims : ℕ → ℕ → ℚ) (similarity_threshold : ℚ) : List (KMarket × PMarket × ℚ) :=
  findSimilarOuter sims similarity_threshold poly_markets 0 kalshi_markets

/-- The `for result in results` loop of `KalshiClient.fetch_markets`
(src/data/kalshi.py lines 128-135): each wave entry is `some (markets,
next_cursor)` for a successful page fetch and `none` for a fetch that raised
an exception (gathered with `return_exceptions=True`).  Successful results
extend `new_markets` in order and truthy cursors are appended; exceptions are
only logged. -/
def kalshiProcessResults {α : Type} :
    List (Option (List α × Option ℕ)) → List α × List ℕ
  | [] => ([], [])
  | none :: rest => kalshiProcessResults rest
  | some (markets, next_cursor) :: rest =>
    let r := kalshiProcessResults rest
    (markets ++ r.1, next_cursor.toList ++ r.2)

/-- The `while has_more and cursors` loop of `KalshiClient.fetch_markets`
(src/data/kalshi.py lines 110-145).  `venue` maps a cursor to the page
response (`none` = the fetch raised); cursor value `0` stands for the initial
request with no cursor.  The loop state is the pending `cursors` frontier and
the accumulated `all_markets`; `reqs` records every cursor requested, in
order.  The `while` loop is embedded with a fuel parameter. -/
def kalshiFetchLoop {α : Type} (venue : ℕ → Option (List α × Option ℕ))
    (max_concurrent : ℕ) :
    ℕ → List ℕ → List α → List ℕ → List ℕ × List α
  | 0, _, all_markets, reqs => (reqs, all_markets)
  | fuel + 1, cursors, all_markets, reqs =>
    if cursors.isEmpty then (reqs, all_markets)
    else
      let current_cursors := cursors.take max_concurrent
      let rest := cursors.drop max_concurrent
      let wave := kalshiProcessResults (current_cursors.map venue)
      let cursors2 := rest ++ wave.2
      let reqs2 := reqs ++ current_cursors
      if wave.1.isEmpty then (reqs2, all_markets)
      else if cursors2.isEmpty then (reqs2, all_markets ++ wave.1)
      else kalshiFetchLoop venue max_concurrent fuel cursors2 (all_markets ++ wave.1) reqs2

/-- `KalshiClient.fetch_markets` (src/data/kalshi.py lines 96-150) including
the final `if all_markets: self._save_markets(all_markets)`: returns the
fetched list together with the snapshot file contents after the run
(`file` = the previously persisted snapshot). -/
def kalshiFetchMarkets (venue : ℕ → Option (List KMarket × Option ℕ))
    (max_concurrent fuel : ℕ) (file : List KMarket) : List KMarket × List KMarket :=
  let all_markets := (kalshiFetchLoop venue max_concurrent fuel [0] [] []).2
  (all_markets, if all_markets.isEmpty then file else kalshi_save_markets file all_markets)

/-- The `for result in results` loop of `PolymarketClient.fetch_markets`
(src/data/polymarket.py lines 145-149): successful page lists extend
`new_markets` in order, exceptions (`none`) are only logged. -/
def polyProcessResults {α : Type} : List (Option (List α)) → List α
  | [] => []
  | none :: rest => polyProcessResults rest
  | some markets :: rest => markets ++ polyProcessResults rest

/-- One page of an offset-paginated source holding the record list `S`:
the venue returns `S[offset : offset + limit]`. -/
def polyPage {α : Type} (S : List α) (limit offset : ℕ) : List α :=
  (S.drop offset).take limit

/-- The `while has_more` loop of `PolymarketClient.fetch_markets`
(src/data/polymarket.py lines 125-159).  Every wave issues exactly
`max_concurrent` requests at offsets `current_offset + i*limit`; after a
productive wave the offset advances by `max_concurrent * limit`, and the loop
stops when a wave yields no records or some successful page is shorter than
`limit`.  `reqs` records every offset requested, in order. -/
def polyFetchLoop {α : Type} (venue : ℕ → Option (List α))
    (limit max_concurrent : ℕ) :
    ℕ → ℕ → List α → List ℕ → List ℕ × List α
  | 0, _, all_markets, reqs => (reqs, all_markets)
  | fuel + 1, current_offset, all_markets, reqs =>
    let offsets := (List.range max_concurrent).map fun i => current_offset + i * limit
    let results := offsets.map venue
    let new_markets := polyProcessResults results
    let reqs2 := reqs ++ offsets
    if new_markets.isEmpty then (reqs2, all_markets)
    else
      if results.any (fun r => match r with
          | some l => decide (l.length < limit)
          | none => false) then
        (reqs2, all_markets ++ new_markets)
      else
        polyFetchLoop venue limit max_concurrent fuel
          (current_offset + max_concurrent * limit) (all_markets ++ new_markets) reqs2

/-- `PolymarketClient.fetch_markets` (src/data/polymarket.py lines 102-164)
including the final `if all_markets: self._save_markets(all_markets)`:
returns the fetched list together with the snapshot file contents after the
run. -/
def polyFetchMarkets (venue : ℕ → Option (List PMarket))
    (limit max_concurrent fuel : ℕ) (file : List PMarket) :
    List PMarket × List PMarket :=
  let all_markets := (polyFetchLoop venue limit max_concurrent fuel 0 [] []).2
  (all_markets, if all_markets.isEmpty then file else poly_save_markets file all_markets)

/-! ## Helper lemmas about the scorer -/

/-- The code's `1 - cost if cost < 1 else 0` equals `max 0 (1 - cost)` for
strategy 1. -/
lemma strat1Arb_eq_max (k : KMarket) (pn : ℚ) :
    strat1Arb k pn = max 0 (1 - strat1Cost k pn) := by
  unfold strat1Arb
  rcases lt_or_le (strat1Cost k pn) 1 with h | h
  · rw [if_pos h]
    exact (max_eq_right (by linarith)).symm
  · rw [if_neg (not_lt.mpr h)]
    exact (max_eq_left (by linarith)).symm

/-- The code's `1 - cost if cost < 1 else 0` equals `max 0 (1 - cost)` for
strategy 2. -/
lemma strat2Arb_eq_max (k : KMarket) (py : ℚ) :
    strat2Arb k py = max 0 (1 - strat2Cost k py) := by
  unfold strat2Arb
  rcases lt_or_le (strat2Cost k py) 1 with h | h
  · rw [if_pos h]
    exact (max_eq_right (by linarith)).symm
  · rw [if_neg (not_lt.mpr h)]
    exact (max_eq_left (by linarith)).symm

/-- Inversion of `processPair`: an emitted opportunity comes from a pair with
all required fields present and a strictly positive margin, and its fields
are the computed prices, fees and margins. -/
lemma processPair_some_elim {k : KMarket} {p : PMarket} {s : ℚ} {o : Opportunity}
    (h : processPair k p s = some o) :
    ∃ ke pe py pn,
      k.expiration_time = some ke ∧ p.endDate = some pe ∧
      p.outcomePrices = some (py, pn) ∧
      (0 < strat1Arb k pn ∨ 0 < strat2Arb k py) ∧
      o.kalshi_yes_poly_no_arb = strat1Arb k pn ∧
      o.kalshi_no_poly_yes_arb = strat2Arb k py ∧
      o.kalshi_yes_price = kalshiYesPrice k ∧
      o.kalshi_no_price = kalshiNoPrice k ∧
      o.poly_yes_price = py ∧ o.poly_no_price = pn ∧
      o.kalshi_yes_fee = kalshiYesFee k ∧
      o.kalshi_no_fee = kalshiNoFee k := by
  rcases hke : k.expiration_time with _ | ke
  · simp only [processPair, hke] at h
    exact Option.noConfusion h
  rcases hpe : p.endDate with _ | pe
  · simp only [processPair, hke, hpe] at h
    exact Option.noConfusion h
  rcases hop : p.outcomePrices with _ | pr
  · simp only [processPair, hke, hpe, hop] at h
    exact Option.noConfusion h
  obtain ⟨py, pn⟩ := pr
  simp only [processPair, hke, hpe, hop] at h
  split at h
  next hpos =>
    obtain rfl := Option.some_injective _ h
    exact ⟨ke, pe, py, pn, rfl, rfl, rfl, hpos, rfl, rfl, rfl, rfl, rfl, rfl, rfl, rfl⟩
  next => exact Option.noConfusion h

/-- Strategy 1's margin at the spec's end-to-end example prices:
kalshi `yes_ask = 40` cents, polymarket no-price `0.45`. -/
lemma strat1Arb_example (k : KMarket) (hya : k.yes_ask = some 40) :
    strat1Arb k (45/100) = 1332/10000 := by
  have hp : kalshiYesPrice k = 2/5 := by
    rw [kalshiYesPrice, hya]
    norm_num
  have hf : kalshiYesFee k = 168/10000 := by
    rw [kalshiYesFee, hp]
    unfold kalshi_fee
    norm_num
  have hc : strat1Cost k (45/100) = 8668/10000 := by
    rw [strat1Cost, hp, hf]
    norm_num
  rw [strat1Arb, hc]
  norm_num

/-! ## Example records (the spec's §8 end-to-end example, and variants) -/

/-- The Kalshi record of the spec's end-to-end example. -/
def exampleKalshi : KMarket :=
  { ticker := "A1", title := "Will X happen?", yes_ask := some 40,
    no_ask := some 62, expiration_time := some 1735689600 }

/-- The Polymarket record of the spec's end-to-end example, with
`outcomePrices` `["0.55", "0.45"]` already parsed. -/
def examplePoly : PMarket :=
  { id := "B1", question := "Will X happen?", endDate := some 1735776000,
    outcomePrices := some (55/100, 45/100) }

/-- A Kalshi record whose two ask prices are both 100 cents, making both
strategies unprofitable against `examplePoly`-like prices. -/
def bothHighKalshi : KMarket :=
  { ticker := "H1", title := "t", yes_ask := some 100, no_ask := some 100,
    expiration_time := some 5 }

/-- A Polymarket record with parsed outcome prices `[0.5, 0.5]`. -/
def halfPoly : PMarket :=
  { id := "B2", question := "q", endDate := some 6,
    outcomePrices := some (1/2, 1/2) }

/-- A Kalshi record lacking `yes_ask`. -/
def noAskKalshi : KMarket :=
  { ticker := "K2", title := "t2", yes_ask := none, no_ask := some 62,
    expiration_time := some 5 }

/-! ## Claim theorems: fee model and scorer -/

/-- C4: every opportunity emitted by the scorer has at least one of its two
margin fields strictly positive, and a pair whose two strategy margins are
both non-positive produces no opportunity. -/
theorem claim_C4_margin_positivity (pairs : List (KMarket × PMarket × ℚ)) :
    (∀ o ∈ calculate_arbitrage_opportunities pairs,
      0 < o.kalshi_yes_poly_no_arb ∨ 0 < o.kalshi_no_poly_yes_arb) ∧
    ∀ (k : KMarket) (p : PMarket) (s py pn : ℚ),
      p.outcomePrices = some (py, pn) →
      strat1Arb k pn ≤ 0 → strat2Arb k py ≤ 0 →
      processPair k p s = none := by
  constructor
  · intro o ho
    obtain ⟨⟨k, pm, s⟩, _, hsome⟩ := List.mem_filterMap.mp ho
    obtain ⟨ke, pe, py, pn, _, _, _, hpos, h1, h2, _⟩ := processPair_some_elim hsome
    rw [h1, h2]
    exact hpos
  · intro k p s py pn hop h1 h2
    rcases hke : k.expiration_time with _ | ke
    · simp [processPair, hke]
    rcases hpe : p.endDate with _ | pe
    · simp [processPair, hke, hpe]
    simp only [processPair, hke, hpe, hop]
    rw [if_neg]
    rw [not_or]
    exact ⟨not_lt.mpr h1, not_lt.mpr h2⟩

theorem claim_C4_margin_positivity_witness :
    processPair bothHighKalshi halfPoly 1 = none := by
  have h1 : strat1Arb bothHighKalshi (1/2) ≤ 0 := by
    simp only [strat1Arb, strat1Cost, kalshiYesPrice, kalshiYesFee, kalshi_fee,
      bothHighKalshi, Option.getD_some]
    norm_num
  have h2 : strat2Arb bothHighKalshi (1/2) ≤ 0 := by
    simp only [strat2Arb, strat2Cost, kalshiNoPrice, kalshiNoFee, kalshi_fee,
      bothHighKalshi, Option.getD_some]
    norm_num
  exact (claim_C4_margin_positivity []).2 bothHighKalshi halfPoly 1 (1/2) (1/2) rfl h1 h2

/-- C9: a pair whose Kalshi record has `expiration_time` and whose Polymarket
record has `endDate` and `outcomePrices` is not skipped when `yes_ask` is
absent: the missing ask is read as 0 cents, strategy 1's cost degenerates to
the fee on price 0 plus the Polymarket no-price, and when that no-price is
below 1 an opportunity is emitted with margin `1 - poly_no_price > 0`. -/
theorem claim_C9_missing_ask_defaults (k : KMarket) (p : PMarket) (s : ℚ)
    (ke pe : ℕ) (py pn : ℚ)
    (hke : k.expiration_time = some ke) (hpe : p.endDate = some pe)
    (hop : p.outcomePrices = some (py, pn)) (hya : k.yes_ask = none) :
    kalshiYesPrice k = 0 ∧
    strat1Cost k pn = kalshi_fee 0 100 / 100 + pn ∧
    strat1Cost k pn = pn ∧
    (pn < 1 → ∃ o, processPair k p s = some o ∧
      o.kalshi_yes_poly_no_arb = 1 - pn ∧ 0 < o.kalshi_yes_poly_no_arb) := by
  have hp0 : kalshiYesPrice k = 0 := by
    rw [kalshiYesPrice, hya]
    norm_num
  have hfee0 : kalshi_fee 0 100 = 0 := by
    unfold kalshi_fee
    norm_num
  have hcost : strat1Cost k pn = pn := by
    rw [strat1Cost, kalshiYesFee, hp0, hfee0]
    norm_num
  refine ⟨hp0, ?_, hcost, fun hpn => ?_⟩
  · rw [hcost, hfee0]
    norm_num
  · have harb : strat1Arb k pn = 1 - pn := by
      unfold strat1Arb
      rw [hcost, if_pos hpn]
    have hpos : 0 < strat1Arb k pn := by
      rw [harb]
      linarith
    have hpp : processPair k p s = some
        { kalshi_market := k.title
          poly_market := p.question
          similarity_score := s
          kalshi_yes_poly_no_arb := strat1Arb k pn
          kalshi_no_poly_yes_arb := strat2Arb k py
          kalshi_yes_price := kalshiYesPrice k
          kalshi_no_price := kalshiNoPrice k
          poly_yes_price := py
          poly_no_price := pn
          kalshi_yes_fee := kalshiYesFee k
          kalshi_no_fee := kalshiNoFee k
          expiration_date := min ke pe
          kalshi_id := k.ticker
          poly_id := p.id } := by
      simp only [processPair, hke, hpe, hop]
      rw [if_pos (Or.inl hpos)]
    exact ⟨_, hpp, harb, hpos⟩

theorem claim_C9_missing_ask_defaults_witness :
    kalshiYesPrice noAskKalshi = 0 ∧ strat1Cost noAskKalshi (45/100) = 45/100 := by
  have h := claim_C9_missing_ask_defaults noAskKalshi examplePoly 1 5 1735776000
    (55/100) (45/100) rfl rfl rfl rfl
  exact ⟨h.1, h.2.2.1⟩

/-! ## Helper lemmas about the merge store -/

/-- Filter characterization of first-occurrence dedup: for each key value `k`
not yet seen, the output's records with key `k` are exactly the first
occurrence of `k` in the input. -/
lemma dedupFirstByAux_filter_eq {α κ : Type} [DecidableEq κ] (key : α → κ) (k : κ)
    (xs : List α) : ∀ seen : List κ,
    (dedupFirstByAux key seen xs).filter (fun r => decide (key r = k)) =
      if k ∈ seen then [] else (xs.filter (fun r => decide (key r = k))).take 1 := by
  induction xs with
  | nil => intro seen; simp [dedupFirstByAux]
  | cons x xs ih =>
    intro seen
    by_cases hx : key x ∈ seen
    · rw [dedupFirstByAux, if_pos hx, ih]
      by_cases hk : k ∈ seen
      · simp [hk]
      · have hne : (decide (key x = k)) = false := by
          simp only [decide_eq_false_iff_not]
          intro hkk
          exact hk (hkk ▸ hx)
        simp [hk, List.filter_cons, hne]
    · rw [dedupFirstByAux, if_neg hx]
      by_cases hxk : key x = k
      · subst hxk
        rw [List.filter_cons, List.filter_cons]
        simp only [decide_True, if_true, if_neg hx]
        rw [ih]
        simp [hx]
      · have hne : (decide (key x = k)) = false := by simp [hxk]
        rw [List.filter_cons, List.filter_cons, hne]
        simp only [Bool.false_eq_true, if_false]
        rw [ih]
        by_cases hk : k ∈ seen
        · rw [if_pos hk, if_pos (List.mem_cons_of_mem _ hk)]
        · rw [if_neg hk, if_neg ?_]
          intro hmem
          rcases List.mem_cons.mp hmem with h | h
          · exact hxk h.symm
          · exact hk h

/-- First-occurrence dedup yields pairwise-distinct keys, none of them
already seen. -/
lemma dedupFirstByAux_pairwise {α κ : Type} [DecidableEq κ] (key : α → κ)
    (xs : List α) : ∀ seen : List κ,
    List.Pairwise (fun a b => key a ≠ key b) (dedupFirstByAux key seen xs) ∧
      ∀ x ∈ dedupFirstByAux key seen xs, key x ∉ seen := by
  induction xs with
  | nil => intro seen; simp [dedupFirstByAux]
  | cons x xs ih =>
    intro seen
    by_cases hx : key x ∈ seen
    · rw [dedupFirstByAux, if_pos hx]
      exact ih seen
    · rw [dedupFirstByAux, if_neg hx]
      obtain ⟨hpw, hni⟩ := ih (key x :: seen)
      refine ⟨List.pairwise_cons.mpr ⟨fun y hy => ?_, hpw⟩, ?_⟩
      · intro hxy
        exact hni y hy (hxy ▸ List.mem_cons_self _ _)
      · intro y hy
        rcases List.mem_cons.mp hy with rfl | hy2
        · exact hx
        · intro hys
          exact hni y hy2 (List.mem_cons_of_mem _ hys)

/-- `dedupFirstBy` keeps, for every key value, exactly the first occurrence. -/
lemma dedupFirstBy_filter_eq {α κ : Type} [DecidableEq κ] (key : α → κ) (k : κ)
    (xs : List α) :
    (dedupFirstBy key xs).filter (fun r => decide (key r = k)) =
      (xs.filter (fun r => decide (key r = k))).take 1 := by
  rw [dedupFirstBy, dedupFirstByAux_filter_eq, if_neg (List.not_mem_nil k)]

/-- Records returned by `dedupFirstBy` have pairwise-distinct keys. -/
lemma dedupFirstBy_pairwise {α κ : Type} [DecidableEq κ] (key : α → κ)
    (xs : List α) :
    List.Pairwise (fun a b => key a ≠ key b) (dedupFirstBy key xs) :=
  (dedupFirstByAux_pairwise key xs []).1

/-- Polymarket records sharing an `id` but differing in another field: both
survive `poly_save_markets`' whole-record dedup. -/
def dupIdPoly1 : PMarket :=
  { id := "A", question := "q1", endDate := none, outcomePrices := none }

/-- A record with the same `id` as `dupIdPoly1` but a different question. -/
def dupIdPoly2 : PMarket :=
  { id := "A", question := "q2", endDate := none, outcomePrices := none }

/-! ## Claim C1: merge and dedup -/

/-- C1 (amended): merge concatenates existing records first, then new.  The
Kalshi merge deduplicates by the `ticker` identity key keeping the first
occurrence in that concatenation, so a persisted record takes precedence and
no two result records share a ticker.  The Polymarket merge deduplicates by
whole-record equality (not by `id`) keeping the first occurrence, so only
exact duplicate rows are dropped. -/
theorem claim_C1_merge_first_wins (exK newK : List KMarket) (exP newP : List PMarket) :
    (∀ t : String,
      (kalshi_save_markets exK newK).filter (fun r => decide (r.ticker = t)) =
        ((exK ++ newK).filter (fun r => decide (r.ticker = t))).take 1) ∧
    List.Pairwise (fun a b : KMarket => a.ticker ≠ b.ticker)
      (kalshi_save_markets exK newK) ∧
    (∀ e ∈ exK, ∃ r ∈ exK,
      (kalshi_save_markets exK newK).filter
        (fun x => decide (x.ticker = e.ticker)) = [r]) ∧
    (∀ m : PMarket,
      (poly_save_markets exP newP).filter (fun r => decide (r = m)) =
        ((exP ++ newP).filter (fun r => decide (r = m))).take 1) ∧
    List.Pairwise (fun a b : PMarket => a ≠ b) (poly_save_markets exP newP) := by
  refine ⟨fun t => dedupFirstBy_filter_eq KMarket.ticker t (exK ++ newK),
    dedupFirstBy_pairwise KMarket.ticker (exK ++ newK), ?_,
    fun m => dedupFirstBy_filter_eq (fun r => r) m (exP ++ newP),
    dedupFirstBy_pairwise (fun r => r) (exP ++ newP)⟩
  intro e he
  have hmem : e ∈ exK.filter (fun x => decide (x.ticker = e.ticker)) :=
    List.mem_filter.mpr ⟨he, by simp⟩
  rcases hfe : exK.filter (fun x => decide (x.ticker = e.ticker)) with _ | ⟨r, rest⟩
  · rw [hfe] at hmem
    exact absurd hmem (List.not_mem_nil e)
  · refine ⟨r, ?_, ?_⟩
    · exact List.mem_of_mem_filter (hfe ▸ List.mem_cons_self r rest)
    · rw [kalshi_save_markets, dedupFirstBy_filter_eq, List.filter_append, hfe]
      rfl

theorem claim_C1_merge_first_wins_witness :
    ∃ r ∈ [exampleKalshi],
      (kalshi_save_markets [exampleKalshi] []).filter
        (fun x => decide (x.ticker = exampleKalshi.ticker)) = [r] :=
  (claim_C1_merge_first_wins [exampleKalshi] [] [] []).2.2.1 exampleKalshi
    (List.mem_singleton.mpr rfl)

/-- C1 counterexample: merging a persisted Polymarket record with a freshly
fetched one sharing its `id` but differing in `question` keeps BOTH — the
merge does not deduplicate by the `id` identity key, the result contains two
records sharing an identity key, and the fresh duplicate is not dropped. -/
theorem claim_C1_counterexample :
    dupIdPoly1 ∈ poly_save_markets [dupIdPoly1] [dupIdPoly2] ∧
    dupIdPoly2 ∈ poly_save_markets [dupIdPoly1] [dupIdPoly2] ∧
    dupIdPoly1.id = dupIdPoly2.id ∧
    dupIdPoly1 ≠ dupIdPoly2 ∧
    ¬ List.Pairwise (fun a b : PMarket => a.id ≠ b.id)
        (poly_save_markets [dupIdPoly1] [dupIdPoly2]) := by
  have heval : poly_save_markets [dupIdPoly1] [dupIdPoly2] = [dupIdPoly1, dupIdPoly2] := by
    simp [poly_save_markets, dedupFirstBy, dedupFirstByAux, dupIdPoly1, dupIdPoly2]
  refine ⟨heval ▸ List.mem_cons_self _ _,
    heval ▸ List.mem_cons_of_mem _ (List.mem_cons_self _ _), rfl, ?_, ?_⟩
  · intro h
    have := congrArg PMarket.question h
    simp [dupIdPoly1, dupIdPoly2] at this
  · intro h
    rw [heval] at h
    exact (List.pairwise_cons.mp h).1 dupIdPoly2 (List.mem_singleton.mpr rfl) rfl

/-! ## Helper lemmas about the match engine -/

/-- Every pair the inner match loop emits scored at or above the threshold. -/
lemma findSimilarInner_ge {sims : ℕ → ℕ → ℚ} {thr : ℚ} {km : KMarket} {i : ℕ} :
    ∀ (pms : List PMarket) (j0 : ℕ) (x : KMarket × PMarket × ℚ),
      x ∈ findSimilarInner sims thr km i j0 pms → thr ≤ x.2.2 := by
  intro pms
  induction pms with
  | nil =>
    intro j0 x hx
    simp [findSimilarInner] at hx
  | cons pm rest ih =>
    intro j0 x hx
    rw [findSimilarInner] at hx
    rcases List.mem_append.mp hx with h | h
    · split at h
      next hle =>
        obtain rfl := List.mem_singleton.mp h
        exact hle
      next => exact absurd h (List.not_mem_nil x)
    · exact ih (j0 + 1) x h

/-- Every pair the outer match loop emits scored at or above the threshold. -/
lemma findSimilarOuter_ge {sims : ℕ → ℕ → ℚ} {thr : ℚ} {pms : List PMarket} :
    ∀ (kms : List KMarket) (i0 : ℕ) (x : KMarket × PMarket × ℚ),
      x ∈ findSimilarOuter sims thr pms i0 kms → thr ≤ x.2.2 := by
  intro kms
  induction kms with
  | nil =>
    intro i0 x hx
    simp [findSimilarOuter] at hx
  | cons km rest ih =>
    intro i0 x hx
    rw [findSimilarOuter] at hx
    rcases List.mem_append.mp hx with h | h
    · exact findSimilarInner_ge pms 0 x h
    · exact ih (i0 + 1) x h

/-- The inner match loop emits the pair at every column whose score clears
the threshold. -/
lemma findSimilarInner_mem {sims : ℕ → ℕ → ℚ} {thr : ℚ} {km : KMarket} {i : ℕ} :
    ∀ (pms : List PMarket) (j0 j : ℕ) (hj : j < pms.length),
      thr ≤ sims i (j0 + j) →
      (km, pms.get ⟨j, hj⟩, sims i (j0 + j)) ∈ findSimilarInner sims thr km i j0 pms := by
  intro pms
  induction pms with
  | nil =>
    intro j0 j hj
    simp at hj
  | cons pm rest ih =>
    intro j0 j hj hle
    cases j with
    | zero =>
      rw [findSimilarInner]
      refine List.mem_append.mpr (Or.inl ?_)
      rw [Nat.add_zero] at hle ⊢
      rw [if_pos hle]
      exact List.mem_singleton.mpr rfl
    | succ j =>
      rw [findSimilarInner]
      refine List.mem_append.mpr (Or.inr ?_)
      have harith : j0 + (j + 1) = (j0 + 1) + j := by omega
      rw [harith] at hle ⊢
      exact ih (j0 + 1) j (Nat.lt_of_succ_lt_succ hj) hle

/-- The outer match loop emits the pair at every cell whose score clears the
threshold. -/
lemma findSimilarOuter_mem {sims : ℕ → ℕ → ℚ} {thr : ℚ} {pms : List PMarket} :
    ∀ (kms : List KMarket) (i0 i : ℕ) (hi : i < kms.length) (j : ℕ)
      (hj : j < pms.length),
      thr ≤ sims (i0 + i) j →
      (kms.get ⟨i, hi⟩, pms.get ⟨j, hj⟩, sims (i0 + i) j) ∈
        findSimilarOuter sims thr pms i0 kms := by
  intro kms
  induction kms with
  | nil =>
    intro i0 i hi
    simp at hi
  | cons km rest ih =>
    intro i0 i hi j hj hle
    cases i with
    | zero =>
      rw [findSimilarOuter]
      refine List.mem_append.mpr (Or.inl ?_)
      rw [Nat.add_zero] at hle ⊢
      have h0 : sims i0 j = sims i0 (0 + j) := by rw [Nat.zero_add]
      rw [h0] at hle ⊢
      exact findSimilarInner_mem pms 0 j hj hle
    | succ i =>
      rw [findSimilarOuter]
      refine List.mem_append.mpr (Or.inr ?_)
      have harith : i0 + (i + 1) = (i0 + 1) + i := by omega
      rw [harith] at hle ⊢
      exact ih (i0 + 1) i (Nat.lt_of_succ_lt_succ hi) j hj hle

/-! ## Claim C5: similarity threshold -/

/-- C5: the match engine emits the pair at record indices (i, j) exactly when
`similarities[i, j] >= similarity_threshold`: a score equal to the threshold
is included, one strictly below is excluded, and nothing restricts a record
to a single pair. -/
theorem claim_C5_threshold_boundary (kms : List KMarket) (pms : List PMarket)
    (sims : ℕ → ℕ → ℚ) (thr : ℚ) (i j : ℕ)
    (hi : i < kms.length) (hj : j < pms.length) :
    (kms.get ⟨i, hi⟩, pms.get ⟨j, hj⟩, sims i j) ∈
        find_similar_markets kms pms sims thr ↔ thr ≤ sims i j := by
  constructor
  · intro hmem
    exact findSimilarOuter_ge kms 0 _ hmem
  · intro hle
    have h0 : sims i j = sims (0 + i) j := by rw [Nat.zero_add]
    rw [find_similar_markets]
    rw [h0] at hle ⊢
    exact findSimilarOuter_mem kms 0 i hi j hj hle

theorem claim_C5_threshold_boundary_witness :
    (exampleKalshi, examplePoly, (8:ℚ)/10) ∈
      find_similar_markets [exampleKalshi] [examplePoly, halfPoly]
        (fun _ _ => 8/10) (8/10) ∧
    (exampleKalshi, halfPoly, (8:ℚ)/10) ∈
      find_similar_markets [exampleKalshi] [examplePoly, halfPoly]
        (fun _ _ => 8/10) (8/10) := by
  constructor
  · exact (claim_C5_threshold_boundary [exampleKalshi] [examplePoly, halfPoly]
      (fun _ _ => 8/10) (8/10) 0 0 (by simp) (by simp)).mpr (le_refl _)
  · exact (claim_C5_threshold_boundary [exampleKalshi] [examplePoly, halfPoly]
      (fun _ _ => 8/10) (8/10) 0 1 (by simp) (by simp)).mpr (le_refl _)

/-! ## Claim C7: partial failure within a wave -/

/-- C7: in both venues' wave-result processing, a fetch that failed with an
exception (a `none` result) contributes nothing and aborts nothing: dropping
it leaves the wave's collected records and continuations unchanged, and the
whole wave outcome is determined by the successful results alone. -/
theorem claim_C7_wave_partial_failure {α : Type} :
    (∀ (rs1 rs2 : List (Option (List α × Option ℕ))),
      kalshiProcessResults (rs1 ++ none :: rs2) = kalshiProcessResults (rs1 ++ rs2)) ∧
    (∀ results : List (Option (List α × Option ℕ)),
      kalshiProcessResults results =
        kalshiProcessResults (results.filter Option.isSome)) ∧
    (∀ (rs1 rs2 : List (Option (List α))),
      polyProcessResults (rs1 ++ none :: rs2) = polyProcessResults (rs1 ++ rs2)) ∧
    (∀ results : List (Option (List α)),
      polyProcessResults results = polyProcessResults (results.filter Option.isSome)) := by
  refine ⟨?_, ?_, ?_, ?_⟩
  · intro rs1 rs2
    induction rs1 with
    | nil => rfl
    | cons r rs1 ih =>
      cases r with
      | none => simpa only [List.cons_append, kalshiProcessResults] using ih
      | some v =>
        obtain ⟨ms, oc⟩ := v
        simp only [List.cons_append, kalshiProcessResults, List.append_eq]
        rw [ih]
  · intro results
    induction results with
    | nil => rfl
    | cons r results ih =>
      cases r with
      | none => simpa only [kalshiProcessResults, List.filter_cons, Option.isSome_none,
          Bool.false_eq_true, if_false] using ih
      | some v =>
        obtain ⟨ms, oc⟩ := v
        simp only [kalshiProcessResults, List.filter_cons, Option.isSome_some, if_true]
        rw [ih]
  · intro rs1 rs2
    induction rs1 with
    | nil => rfl
    | cons r rs1 ih =>
      cases r with
      | none => simpa only [List.cons_append, polyProcessResults] using ih
      | some ms =>
        simp only [List.cons_append, polyProcessResults, List.append_eq]
        rw [ih]
  · intro results
    induction results with
    | nil => rfl
    | cons r results ih =>
      cases r with
      | none => simpa only [polyProcessResults, List.filter_cons, Option.isSome_none,
          Bool.false_eq_true, if_false] using ih
      | some ms =>
        simp only [polyProcessResults, List.filter_cons, Option.isSome_some, if_true]
        rw [ih]

/-! ## Claim C10: no write on an empty collection run -/

/-- C10: for both venues, a collection run that gathers zero records returns
the empty list and leaves the persisted snapshot untouched — `_save_markets`
is only called when `all_markets` is non-empty. -/
theorem claim_C10_no_write_on_empty_run :
    (∀ (venue : ℕ → Option (List KMarket × Option ℕ)) (max_concurrent fuel : ℕ)
      (file : List KMarket),
      (kalshiFetchLoop venue max_concurrent fuel [0] [] []).2 = [] →
      kalshiFetchMarkets venue max_concurrent fuel file = ([], file)) ∧
    (∀ (venue : ℕ → Option (List PMarket)) (limit max_concurrent fuel : ℕ)
      (file : List PMarket),
      (polyFetchLoop venue limit max_concurrent fuel 0 [] []).2 = [] →
      polyFetchMarkets venue limit max_concurrent fuel file = ([], file)) := by
  constructor
  · intro venue max_concurrent fuel file h
    rw [kalshiFetchMarkets, h]
    rfl
  · intro venue limit max_concurrent fuel file h
    rw [polyFetchMarkets, h]
    rfl

theorem claim_C10_no_write_on_empty_run_witness :
    kalshiFetchMarkets (fun _ => some ([], none)) 1 1 [exampleKalshi] =
      ([], [exampleKalshi]) ∧
    polyFetchMarkets (fun _ => some []) 1 1 1 [examplePoly] = ([], [examplePoly]) :=
  ⟨(claim_C10_no_write_on_empty_run).1 (fun _ => some ([], none)) 1 1 [exampleKalshi] rfl,
    (claim_C10_no_write_on_empty_run).2 (fun _ => some []) 1 1 1 [examplePoly] rfl⟩

/-! ## Helper lemmas about the collection loops -/

lemma take_singleton {i m : ℕ} (hm : 1 ≤ m) : List.take m [i] = [i] :=
  List.take_of_length_le (by simpa)

lemma drop_singleton {i m : ℕ} (hm : 1 ≤ m) : List.drop m ([i] : List ℕ) = [] :=
  List.drop_eq_nil_of_le (by simpa)

/-- Against a cursor-sequential venue (page `i` links to cursor `i + 1`, full
pages up to `n`, page `n` terminal and short), the Kalshi loop walks the
cursor chain one page per wave: starting at cursor `i` with `i + d = n`, it
requests exactly the cursors `i, i+1, ..., n`. -/
lemma kalshiFetchLoop_seq {α : Type} (venue : ℕ → Option (List α × Option ℕ))
    (m L n : ℕ) (hm : 1 ≤ m) (hL : 1 ≤ L)
    (hfull : ∀ i < n, ∃ ms, venue i = some (ms, some (i + 1)) ∧ ms.length = L)
    (hlast : ∃ ms, venue n = some (ms, none) ∧ ms.length < L) :
    ∀ d, ∀ i, i + d = n → ∀ (fuel : ℕ) (acc : List α) (reqs : List ℕ), d + 1 ≤ fuel →
      (kalshiFetchLoop venue m fuel [i] acc reqs).1 = reqs ++ List.range' i (d + 1) := by
  intro d
  induction d with
  | zero =>
    intro i hi fuel acc reqs hfuel
    obtain rfl : i = n := by omega
    obtain ⟨ms, hv, hms⟩ := hlast
    cases fuel with
    | zero => omega
    | succ fuel =>
      simp only [kalshiFetchLoop, List.isEmpty_cons, take_singleton hm, drop_singleton hm,
        List.map_cons, List.map_nil, hv, kalshiProcessResults, Option.toList_none]
      simp only [List.append_nil, List.nil_append, Bool.false_eq_true, if_false]
      split
      · rfl
      · rfl
  | succ d ih =>
    intro i hi fuel acc reqs hfuel
    have hin : i < n := by omega
    obtain ⟨ms, hv, hms⟩ := hfull i hin
    have hne : ms.isEmpty = false := by
      cases ms with
      | nil =>
        simp at hms
        omega
      | cons a l => rfl
    cases fuel with
    | zero => omega
    | succ fuel =>
      simp only [kalshiFetchLoop, List.isEmpty_cons, take_singleton hm, drop_singleton hm,
        List.map_cons, List.map_nil, hv, kalshiProcessResults, Option.toList_some]
      simp only [List.append_nil, List.nil_append, hne, Bool.false_eq_true, if_false,
        List.isEmpty_cons]
      rw [ih (i + 1) (by omega) fuel (acc ++ ms) (reqs ++ [i]) (by omega)]
      rw [List.append_assoc]
      congr 1

lemma polyPage_length {α : Type} (S : List α) (L o : ℕ) :
    (polyPage S L o).length = min L (S.length - o) := by
  simp [polyPage]

lemma polyProcessResults_map_someF {α β : Type} (g : β → List α) (l : List β) :
    polyProcessResults (l.map (fun b => some (g b))) = (l.map g).flatten := by
  induction l with
  | nil => rfl
  | cons b l ih => simp [polyProcessResults, ih]

/-- Against an offset-paginated source with `n2` remaining full pages of size
`L` followed by a short page of `r < L` records, the Polymarket loop issues
`⌊n2/m⌋ + 1` further waves of exactly `m` requests each, at consecutive
offsets spaced `L` apart. -/
lemma polyFetchLoop_waves {α : Type} (S : List α) (L m r : ℕ)
    (hm : 1 ≤ m) (hL : 1 ≤ L) (hr : r < L) :
    ∀ n2 off acc reqs fuel, S.length = off + n2 * L + r → n2 / m + 1 ≤ fuel →
      (polyFetchLoop (fun o => some (polyPage S L o)) L m fuel off acc reqs).1 =
        reqs ++ (List.range (m * (n2 / m + 1))).map (fun idx => off + idx * L) := by
  intro n2
  induction n2 using Nat.strong_induction_on with
  | _ n2 ih =>
  intro off acc reqs fuel hS hfuel
  cases fuel with
  | zero => exact absurd hfuel (Nat.not_succ_le_zero _)
  | succ fuel =>
    simp only [polyFetchLoop]
    rw [List.map_map]
    have hnm : polyProcessResults ((List.range m).map
        ((fun o => some (polyPage S L o)) ∘ fun i => off + i * L)) =
        ((List.range m).map (fun i => polyPage S L (off + i * L))).flatten := by
      exact polyProcessResults_map_someF _ _
    rw [hnm]
    by_cases hlt : n2 < m
    · have hdiv : n2 / m = 0 := Nat.div_eq_of_lt hlt
      by_cases hzero : n2 = 0 ∧ r = 0
      · obtain ⟨hn0, hr0⟩ := hzero
        subst hn0 hr0
        have hempty : ((List.range m).map
            (fun i => polyPage S L (off + i * L))).flatten = [] := by
          rw [List.flatten_eq_nil_iff]
          intro x hx
          obtain ⟨i, hi, rfl⟩ := List.mem_map.mp hx
          have h0 : S.length - (off + i * L) = 0 := by omega
          have hlen : (polyPage S L (off + i * L)).length = 0 := by
            rw [polyPage_length, h0, Nat.min_zero]
          exact List.eq_nil_of_length_eq_zero hlen
        rw [hempty]
        simp only [List.isEmpty_nil, if_true]
        rw [hdiv]
        simp
      · have hN1 : 1 ≤ n2 * L + r := by
          rcases Nat.eq_zero_or_pos n2 with hn0 | hn1
          · subst hn0
            simp only [Nat.zero_mul, Nat.zero_add]
            omega
          · have : L ≤ n2 * L := Nat.le_mul_of_pos_left L hn1
            omega
        have hpage0 : 1 ≤ (polyPage S L (off + 0 * L)).length := by
          rw [polyPage_length]
          have h0 : S.length - (off + 0 * L) = n2 * L + r := by omega
          rw [h0]
          exact le_min hL hN1
        have hflatne : ((List.range m).map
            (fun i => polyPage S L (off + i * L))).flatten ≠ [] := by
          intro hall
          rw [List.flatten_eq_nil_iff] at hall
          have h0 := hall (polyPage S L (off + 0 * L))
            (List.mem_map.mpr ⟨0, List.mem_range.mpr (by omega), rfl⟩)
          rw [h0] at hpage0
          simp at hpage0
        have hfe : ((List.range m).map
            (fun i => polyPage S L (off + i * L))).flatten.isEmpty = false := by
          rcases hfl : ((List.range m).map
              (fun i => polyPage S L (off + i * L))).flatten with _ | ⟨a, l⟩
          · exact absurd hfl hflatne
          · rfl
        rw [hfe]
        simp only [Bool.false_eq_true, if_false]
        have hany : (((List.range m).map (fun i => off + i * L)).map
            (fun o => some (polyPage S L o))).any (fun rr => match rr with
              | some l => decide (l.length < L)
              | none => false) = true := by
          rw [List.any_eq_true]
          refine ⟨some (polyPage S L (off + n2 * L)), ?_, ?_⟩
          · exact List.mem_map.mpr ⟨off + n2 * L,
              List.mem_map.mpr ⟨n2, List.mem_range.mpr hlt, rfl⟩, rfl⟩
          · have hsub : S.length - (off + n2 * L) = r := by omega
            have hlen : (polyPage S L (off + n2 * L)).length = r := by
              rw [polyPage_length, hsub]
              exact Nat.min_eq_right (Nat.le_of_lt hr)
            simp only [hlen]
            exact decide_eq_true hr
        rw [List.map_map] at hany
        rw [hany]
        simp only [if_true]
        rw [hdiv]
        simp
    · push_neg at hlt
      have hml : m * L ≤ n2 * L := Nat.mul_le_mul_right L hlt
      have hfullp : ∀ i < m, (polyPage S L (off + i * L)).length = L := by
        intro i hi
        have hiL : (i + 1) * L ≤ n2 * L := Nat.mul_le_mul_right L (by omega)
        rw [Nat.add_mul, Nat.one_mul] at hiL
        have hge : L ≤ S.length - (off + i * L) := by omega
        rw [polyPage_length]
        exact Nat.min_eq_left hge
      have hpage0 : 1 ≤ (polyPage S L (off + 0 * L)).length := by
        rw [hfullp 0 (by omega)]
        exact hL
      have hflatne : ((List.range m).map
          (fun i => polyPage S L (off + i * L))).flatten ≠ [] := by
        intro hall
        rw [List.flatten_eq_nil_iff] at hall
        have h0 := hall (polyPage S L (off + 0 * L))
          (List.mem_map.mpr ⟨0, List.mem_range.mpr (by omega), rfl⟩)
        rw [h0] at hpage0
        simp at hpage0
      have hfe : ((List.range m).map
          (fun i => polyPage S L (off + i * L))).flatten.isEmpty = false := by
        rcases hfl : ((List.range m).map
            (fun i => polyPage S L (off + i * L))).flatten with _ | ⟨a, l⟩
        · exact absurd hfl hflatne
        · rfl
      rw [hfe]
      simp only [Bool.false_eq_true, if_false]
      have hany : (((List.range m).map (fun i => off + i * L)).map
          (fun o => some (polyPage S L o))).any (fun rr => match rr with
            | some l => decide (l.length < L)
            | none => false) = false := by
        rw [List.any_eq_false]
        intro x hx
        obtain ⟨o, ho, rfl⟩ := List.mem_map.mp hx
        obtain ⟨i, hi, rfl⟩ := List.mem_map.mp ho
        simp only [hfullp i (List.mem_range.mp hi)]
        simp
      rw [List.map_map] at hany
      rw [hany]
      simp only [Bool.false_eq_true, if_false]
      have hrec := ih (n2 - m) (by omega) (off + m * L) (acc ++
          ((List.range m).map (fun i => polyPage S L (off + i * L))).flatten)
          (reqs ++ (List.range m).map (fun i => off + i * L)) fuel ?_ ?_
      · rw [hrec]
        have hdiv2 : n2 / m = (n2 - m) / m + 1 := Nat.div_eq_sub_div (by omega) hlt
        rw [hdiv2]
        rw [List.append_assoc]
        congr 1
        have hsplit : m * ((n2 - m) / m + 1 + 1) = m + m * ((n2 - m) / m + 1) := by ring
        rw [hsplit, List.range_add, List.map_append, List.map_map]
        congr 1
        apply List.map_congr_left
        intro idx hidx
        simp only [Function.comp]
        ring
      · have hsm : (n2 - m) * L = n2 * L - m * L := Nat.sub_mul n2 m L
        omega
      · have hdiv2 : n2 / m = (n2 - m) / m + 1 := Nat.div_eq_sub_div (by omega) hlt
        omega

/-! ## Claim C6: pagination termination -/

/-- A sequential cursor venue with one full page then a terminal empty page,
used to witness the pagination theorem. -/
def witnessCursorVenue : ℕ → Option (List ℕ × Option ℕ) :=
  fun i => if i = 0 then some ([7], some 1) else some ([], none)

/-- C6 (amended): against a source of n full pages followed by one short or
empty page, the Kalshi (cursor) loop requests exactly the n + 1 cursors
0, 1, ..., n, each once — n + 1 page requests, never re-requesting any
cursor.  The Polymarket (offset) loop issues full waves of `max_concurrent`
= m requests, terminating after ⌊n/m⌋ + 1 waves: exactly m·(⌊n/m⌋ + 1)
requests at distinct consecutive offsets — equal to n + 1 only when m = 1,
and including offsets at or past the short page in the final wave. -/
theorem claim_C6_pagination_termination :
    (∀ {α : Type} (venue : ℕ → Option (List α × Option ℕ)) (m L n fuel : ℕ),
      1 ≤ m → 1 ≤ L → n + 1 ≤ fuel →
      (∀ i < n, ∃ ms, venue i = some (ms, some (i + 1)) ∧ ms.length = L) →
      (∃ ms, venue n = some (ms, none) ∧ ms.length < L) →
      (kalshiFetchLoop venue m fuel [0] [] []).1 = List.range (n + 1) ∧
        ((kalshiFetchLoop venue m fuel [0] [] []).1).Nodup) ∧
    (∀ {α : Type} (S : List α) (L m n r fuel : ℕ),
      1 ≤ m → 1 ≤ L → r < L → S.length = n * L + r → n / m + 1 ≤ fuel →
      (polyFetchLoop (fun o => some (polyPage S L o)) L m fuel 0 [] []).1 =
          (List.range (m * (n / m + 1))).map (· * L) ∧
        ((polyFetchLoop (fun o => some (polyPage S L o)) L m fuel 0 [] []).1).Nodup) := by
  constructor
  · intro α venue m L n fuel hm hL hfuel hfull hlast
    have h := kalshiFetchLoop_seq venue m L n hm hL hfull hlast n 0 (by omega)
      fuel [] [] (by omega)
    rw [List.nil_append] at h
    have hrg : List.range' 0 (n + 1) = List.range (n + 1) :=
      (List.range_eq_range' (n + 1)).symm
    rw [h, hrg]
    exact ⟨rfl, List.nodup_range _⟩
  · intro α S L m n r fuel hm hL hr hS hfuel
    have h := polyFetchLoop_waves S L m r hm hL hr n 0 [] [] fuel (by omega) hfuel
    rw [List.nil_append] at h
    have hmc : (List.range (m * (n / m + 1))).map (fun idx => 0 + idx * L) =
        (List.range (m * (n / m + 1))).map (· * L) := by
      apply List.map_congr_left
      intro idx _
      omega
    rw [h, hmc]
    refine ⟨rfl, List.Nodup.map ?_ (List.nodup_range _)⟩
    intro a b hab
    have : a * L = b * L := hab
    exact Nat.eq_of_mul_eq_mul_right (by omega) this

theorem claim_C6_pagination_termination_witness :
    (kalshiFetchLoop witnessCursorVenue 1 2 [0] [] []).1 = List.range 2 ∧
    (polyFetchLoop (fun o => some (polyPage [3, 4, 5] 2 o)) 2 2 1 0 [] []).1 =
      (List.range 2).map (· * 2) := by
  constructor
  · refine ((claim_C6_pagination_termination).1 witnessCursorVenue 1 1 1 2
      (by omega) (by omega) (by omega) ?_ ?_).1
    · intro i hi
      have h0 : i = 0 := by omega
      subst h0
      exact ⟨[7], rfl, rfl⟩
    · exact ⟨[], rfl, by decide⟩
  · exact ((claim_C6_pagination_termination).2 [3, 4, 5] 2 2 1 1 1
      (by omega) (by omega) (by omega) (by decide) (by omega)).1

/-- C6 counterexample: the offset venue with `max_concurrent = 2` against a
source with zero full pages and an empty first page (n = 0) issues 2 page
requests — at offsets 0 and 1, the latter past the short page — not the
n + 1 = 1 requests the claim demands. -/
theorem claim_C6_counterexample :
    (polyFetchLoop (fun o => some (polyPage ([] : List ℕ) 1 o)) 1 2 1 0 [] []).1 =
        [0, 1] ∧
    ((polyFetchLoop (fun o => some (polyPage ([] : List ℕ) 1 o)) 1 2 1 0 [] []).1).length
        ≠ 0 + 1 := by
  constructor
  · rfl
  · decide

/-! ## IEEE binary64 model of the float arithmetic

The Python source computes the fee product and the scorer's costs in IEEE
binary64 doubles.  A double is an exact rational; each arithmetic operation
rounds its exact result to the nearest double, ties to even.  The predicate
below captures one such rounding for a positive normal-range value; every
quantity in the computations modeled here is positive and normal, so this
suffices.  `isNearestF64_unique` shows the predicate pins the result down,
so the rounding chains below compute exactly what the program computes. -/

/-- `r` is the IEEE binary64 rounding of the positive real `x` under
round-to-nearest, ties-to-even: `e` is the binade exponent of `x`
(`2^e ≤ x < 2^(e+1)`), `r` is an integer multiple `m` of the ulp
`2^(e-52)`, and `r` is strictly nearer to `x` than half an ulp, or exactly
half an ulp away with `m` even. -/
def isNearestF64 (x r : ℚ) : Prop :=
  ∃ e m : ℤ, (2:ℚ)^e ≤ x ∧ x < (2:ℚ)^(e+1) ∧ r = (m : ℚ) * (2:ℚ)^(e-52) ∧
    ((x - r < (2:ℚ)^(e-53) ∧ r - x < (2:ℚ)^(e-53)) ∨
      ((x - r = (2:ℚ)^(e-53) ∨ r - x = (2:ℚ)^(e-53)) ∧ m % 2 = 0))

/-- Round-to-nearest-even is deterministic: the predicate admits at most one
rounding of each positive value. -/
lemma isNearestF64_unique {x r1 r2 : ℚ} (h1 : isNearestF64 x r1)
    (h2 : isNearestF64 x r2) : r1 = r2 := by
  obtain ⟨e1, m1, hlo1, hhi1, hr1, hd1⟩ := h1
  obtain ⟨e2, m2, hlo2, hhi2, hr2, hd2⟩ := h2
  have he12 : e1 < e2 + 1 :=
    (zpow_lt_zpow_iff_right₀ (by norm_num : (1:ℚ) < 2)).mp (lt_of_le_of_lt hlo1 hhi2)
  have he21 : e2 < e1 + 1 :=
    (zpow_lt_zpow_iff_right₀ (by norm_num : (1:ℚ) < 2)).mp (lt_of_le_of_lt hlo2 hhi1)
  obtain rfl : e1 = e2 := by omega
  set u : ℚ := (2:ℚ)^(e1-53) with hu
  have hupos : 0 < u := by positivity
  have hscale : (2:ℚ)^(e1-52) = 2 * u := by
    rw [hu, show e1 - 52 = (e1 - 53) + 1 by omega,
      zpow_add_one₀ (by norm_num : (2:ℚ) ≠ 0)]
    ring
  have habs1 : |x - r1| ≤ u ∧ (|x - r1| = u → m1 % 2 = 0) := by
    rcases hd1 with ⟨ha, hb⟩ | ⟨hab, hev⟩
    · have hlt : |x - r1| < u := abs_sub_lt_iff.mpr ⟨ha, hb⟩
      exact ⟨le_of_lt hlt, fun heq => absurd (heq ▸ hlt) (lt_irrefl u)⟩
    · have heq : |x - r1| = u := by
        rcases hab with h | h
        · rw [h]
          exact abs_of_pos hupos
        · rw [show x - r1 = -u by linarith, abs_neg]
          exact abs_of_pos hupos
      exact ⟨le_of_eq heq, fun _ => hev⟩
  have habs2 : |x - r2| ≤ u ∧ (|x - r2| = u → m2 % 2 = 0) := by
    rcases hd2 with ⟨ha, hb⟩ | ⟨hab, hev⟩
    · have hlt : |x - r2| < u := abs_sub_lt_iff.mpr ⟨ha, hb⟩
      exact ⟨le_of_lt hlt, fun heq => absurd (heq ▸ hlt) (lt_irrefl u)⟩
    · have heq : |x - r2| = u := by
        rcases hab with h | h
        · rw [h]
          exact abs_of_pos hupos
        · rw [show x - r2 = -u by linarith, abs_neg]
          exact abs_of_pos hupos
      exact ⟨le_of_eq heq, fun _ => hev⟩
  have htri : |r1 - r2| ≤ |x - r1| + |x - r2| := by
    have h := abs_add (x - r2) (r1 - x)
    rw [show (x - r2) + (r1 - x) = r1 - r2 by ring] at h
    rw [abs_sub_comm r1 x] at h
    linarith
  have hr12 : r1 - r2 = ((m1:ℚ) - m2) * (2*u) := by
    rw [hr1, hr2, hscale]
    ring
  have hdd : |r1 - r2| ≤ 2*u := by linarith [habs1.1, habs2.1]
  have hmm : |(m1:ℚ) - m2| ≤ 1 := by
    rw [hr12, abs_mul, abs_of_pos (by linarith : (0:ℚ) < 2*u)] at hdd
    nlinarith [abs_nonneg ((m1:ℚ) - m2)]
  have hmz : |m1 - m2| ≤ 1 := by
    exact_mod_cast (by push_cast; exact hmm : |((m1 - m2 : ℤ) : ℚ)| ≤ 1)
  have hcs := abs_le.mp hmz
  rcases eq_or_ne m1 m2 with rfl | hne
  · rw [hr1, hr2]
  · have hd : m1 - m2 = 1 ∨ m1 - m2 = -1 := by omega
    have hmabsq : |(m1:ℚ) - m2| = 1 := by
      rcases hd with h | h
      · rw [show (m1:ℚ) - m2 = 1 by exact_mod_cast h]
        norm_num
      · rw [show (m1:ℚ) - m2 = -1 by exact_mod_cast h]
        norm_num
    have habs12 : |r1 - r2| = 2*u := by
      rw [hr12, abs_mul, hmabsq, one_mul, abs_of_pos (by linarith : (0:ℚ) < 2*u)]
    have hd1u : |x - r1| = u := by
      by_contra hne1
      have hlt : |x - r1| < u := lt_of_le_of_ne habs1.1 hne1
      linarith [habs2.1]
    have hd2u : |x - r2| = u := by
      by_contra hne2
      have hlt : |x - r2| < u := lt_of_le_of_ne habs2.1 hne2
      linarith [habs1.1]
    have hev1 := habs1.2 hd1u
    have hev2 := habs2.2 hd2u
    omega

/-- The sequence of IEEE roundings the program performs in
`math.ceil(0.07 * num_contracts * price * (1 - price) * 100)`
(src/utils.py line 29), left-associated as Python evaluates it, with
`cents` the resulting integer: t1 = fl(c07·c), t2 = fl(t1·price),
s = fl(1 − price), t3 = fl(t2·s), t4 = fl(t3·100), cents = ⌈t4⌉.
`c07` and `price` are the double operands; the integer contract counts used
by the program (100 and 2) are exact doubles. -/
def kalshiFeeF64Cents (c07 price num_contracts : ℚ) (cents : ℤ) : Prop :=
  ∃ t1 t2 s t3 t4 : ℚ,
    isNearestF64 (c07 * num_contracts) t1 ∧
    isNearestF64 (t1 * price) t2 ∧
    isNearestF64 (1 - price) s ∧
    isNearestF64 (t2 * s) t3 ∧
    isNearestF64 (t3 * 100) t4 ∧
    cents = ⌈t4⌉

/-- The rounding chain is deterministic: the program's float fee in cents is
a function of its double operands. -/
lemma kalshiFeeF64Cents_unique {c07 price num_contracts : ℚ} {c1 c2 : ℤ}
    (h1 : kalshiFeeF64Cents c07 price num_contracts c1)
    (h2 : kalshiFeeF64Cents c07 price num_contracts c2) : c1 = c2 := by
  obtain ⟨a1, a2, a3, a4, a5, ha1, ha2, ha3, ha4, ha5, hac⟩ := h1
  obtain ⟨b1, b2, b3, b4, b5, hb1, hb2, hb3, hb4, hb5, hbc⟩ := h2
  obtain rfl : a1 = b1 := isNearestF64_unique ha1 hb1
  obtain rfl : a2 = b2 := isNearestF64_unique ha2 hb2
  obtain rfl : a3 = b3 := isNearestF64_unique ha3 hb3
  obtain rfl : a4 = b4 := isNearestF64_unique ha4 hb4
  obtain rfl : a5 = b5 := isNearestF64_unique ha5 hb5
  rw [hac, hbc]

/-- The IEEE roundings of the scorer's strategy-1 computation
(src/utils.py lines 90-101) given the fee in `cents`:
fee = fl(cents/100) (the `/ 100.0` closing `kalshi_fee`),
fee_unit = fl(fee/100) (the `/ 100` at line 97),
a1 = fl(price + fee_unit), cost = fl(a1 + poly_no) (line 100,
left-associated), and, since `cost < 1`, margin = fl(1 − cost) (line 101). -/
def strat1MarginF64 (price poly_no : ℚ) (cents : ℤ) (margin : ℚ) : Prop :=
  ∃ fee fee_unit a1 cost : ℚ,
    isNearestF64 ((cents : ℚ) / 100) fee ∧
    isNearestF64 (fee / 100) fee_unit ∧
    isNearestF64 (price + fee_unit) a1 ∧
    isNearestF64 (a1 + poly_no) cost ∧
    cost < 1 ∧
    isNearestF64 (1 - cost) margin

/-- The binary64 value of the literal 0.07. -/
def dbl007 : ℚ := 1261007895663739/18014398509481984

/-- The binary64 value of 40/100, the program's `yes_ask/100` at 40 cents. -/
def dbl04 : ℚ := 3602879701896397/9007199254740992

/-- The binary64 value of 45/100, the parsed Polymarket no-price 0.45. -/
def dbl045 : ℚ := 8106479329266893/18014398509481984

/-- The binary64 value of the literal 0.3110177634953864. -/
def dbl0311 : ℚ := 5602797935133709/18014398509481984

/-- The binary64 value of fl(1 − dbl0311), an exact round-to-even tie. -/
def dbl0689 : ℚ := 3102900143587069/4503599627370496

/-- The binary64 margin the float scorer computes at the spec's example
(repr 0.1331): 0.13310000000000000597…. -/
def dblMargin : ℚ := 599429110403013/4503599627370496

/-- 0.07 parses to the double `dbl007`. -/
lemma dbl007_rounds : isNearestF64 (7/100) dbl007 :=
  ⟨-4, 5044031582654956, by norm_num, by norm_num, by norm_num [dbl007],
    Or.inl ⟨by norm_num [dbl007], by norm_num [dbl007]⟩⟩

/-- `40/100` evaluates to the double `dbl04`. -/
lemma dbl04_rounds : isNearestF64 (40/100) dbl04 :=
  ⟨-2, 7205759403792794, by norm_num, by norm_num, by norm_num [dbl04],
    Or.inl ⟨by norm_num [dbl04], by norm_num [dbl04]⟩⟩

/-- `float("0.45")` evaluates to the double `dbl045`. -/
lemma dbl045_rounds : isNearestF64 (45/100) dbl045 :=
  ⟨-2, 8106479329266893, by norm_num, by norm_num, by norm_num [dbl045],
    Or.inl ⟨by norm_num [dbl045], by norm_num [dbl045]⟩⟩

/-- 0.3110177634953864 parses to the double `dbl0311`. -/
lemma dbl0311_rounds :
    isNearestF64 (3110177634953864/10000000000000000) dbl0311 :=
  ⟨-2, 5602797935133709, by norm_num, by norm_num, by norm_num [dbl0311],
    Or.inl ⟨by norm_num [dbl0311], by norm_num [dbl0311]⟩⟩

/-- `1 - dbl0311` rounds (an exact tie, to even) to the double `dbl0689`. -/
lemma dbl0689_rounds : isNearestF64 (1 - dbl0311) dbl0689 :=
  ⟨-1, 6205800287174138, by norm_num [dbl0311], by norm_num [dbl0311],
    by norm_num [dbl0689],
    Or.inr ⟨Or.inr (by norm_num [dbl0311, dbl0689]), by norm_num⟩⟩

/-- The program's float evaluation of the fee product at price `dbl04`
(40 cents) with 100 contracts: the product rounds to 168.00000000000003 and
its ceil is 169 cents, one cent above the exact formula's 168. -/
lemma feeChain04_eval : kalshiFeeF64Cents dbl007 dbl04 100 169 := by
  refine ⟨7881299347898369/1125899906842624, 788129934789837/281474976710656,
    5404319552844595/9007199254740992, 7566047373982435/4503599627370496,
    5910974510923777/35184372088832, ?_, ?_, ?_, ?_, ?_, ?_⟩
  · exact ⟨2, 7881299347898369, by norm_num [dbl007], by norm_num [dbl007],
      by norm_num, Or.inl ⟨by norm_num [dbl007], by norm_num [dbl007]⟩⟩
  · exact ⟨1, 6305039478318696, by norm_num [dbl04], by norm_num [dbl04],
      by norm_num, Or.inl ⟨by norm_num [dbl04], by norm_num [dbl04]⟩⟩
  · exact ⟨-1, 5404319552844595, by norm_num [dbl04], by norm_num [dbl04],
      by norm_num, Or.inl ⟨by norm_num [dbl04], by norm_num [dbl04]⟩⟩
  · exact ⟨0, 7566047373982435, by norm_num, by norm_num,
      by norm_num, Or.inl ⟨by norm_num, by norm_num⟩⟩
  · exact ⟨7, 5910974510923777, by norm_num, by norm_num,
      by norm_num, Or.inl ⟨by norm_num, by norm_num⟩⟩
  · rw [show ⌈(5910974510923777 : ℚ)/35184372088832⌉ = (169:ℤ) by
      rw [Int.ceil_eq_iff]; norm_num]

/-- The float scorer's strategy-1 margin at the spec's example: the fee in
dollars is fl(169/100) = 1.69, the per-unit fee fl(1.69/100) = 0.0169, the
cost rounds (two exact ties, to even) to 0.8669, and the margin is
`dblMargin` ≈ 0.1331. -/
lemma strat1Margin_eval : strat1MarginF64 dbl04 dbl045 169 dblMargin := by
  refine ⟨3805541685128069/2251799813685248, 608886669620491/36028797018963968,
    234693835581345/562949953421312, 3904170516967483/4503599627370496,
    ?_, ?_, ?_, ?_, by norm_num, ?_⟩
  · exact ⟨0, 7611083370256138, by norm_num, by norm_num,
      by norm_num, Or.inl ⟨by norm_num, by norm_num⟩⟩
  · exact ⟨-6, 4871093356963928, by norm_num, by norm_num,
      by norm_num, Or.inl ⟨by norm_num, by norm_num⟩⟩
  · exact ⟨-2, 7510202738603040, by norm_num [dbl04], by norm_num [dbl04],
      by norm_num, Or.inr ⟨Or.inr (by norm_num [dbl04]), by norm_num⟩⟩
  · exact ⟨-1, 7808341033934966, by norm_num [dbl045], by norm_num [dbl045],
      by norm_num, Or.inr ⟨Or.inl (by norm_num [dbl045]), by norm_num⟩⟩
  · exact ⟨-3, 4795432883224104, by norm_num [dblMargin], by norm_num [dblMargin],
      by norm_num [dblMargin], Or.inl ⟨by norm_num [dblMargin], by norm_num [dblMargin]⟩⟩

/-- The float fee product at price `dbl0311` with 2 contracts rounds to
3.000000000000001, whose ceil is 4 cents. -/
lemma feeChain311_eval : kalshiFeeF64Cents dbl007 dbl0311 2 4 := by
  refine ⟨1261007895663739/9007199254740992, 6275133687349755/144115188075855872,
    3102900143587069/4503599627370496, 8646911284551355/288230376151711744,
    3377699720527873/1125899906842624, ?_, ?_, ?_, ?_, ?_, ?_⟩
  · exact ⟨-3, 5044031582654956, by norm_num [dbl007], by norm_num [dbl007],
      by norm_num, Or.inl ⟨by norm_num [dbl007], by norm_num [dbl007]⟩⟩
  · exact ⟨-5, 6275133687349755, by norm_num [dbl0311], by norm_num [dbl0311],
      by norm_num, Or.inl ⟨by norm_num [dbl0311], by norm_num [dbl0311]⟩⟩
  · exact ⟨-1, 6205800287174138, by norm_num [dbl0311], by norm_num [dbl0311],
      by norm_num, Or.inr ⟨Or.inr (by norm_num [dbl0311]), by norm_num⟩⟩
  · exact ⟨-6, 8646911284551355, by norm_num, by norm_num,
      by norm_num, Or.inl ⟨by norm_num, by norm_num⟩⟩
  · exact ⟨1, 6755399441055746, by norm_num, by norm_num,
      by norm_num, Or.inl ⟨by norm_num, by norm_num⟩⟩
  · rw [show ⌈(3377699720527873 : ℚ)/1125899906842624⌉ = (4:ℤ) by
      rw [Int.ceil_eq_iff]; norm_num]

/-- The float fee product at the complementary price `dbl0689` with 2
contracts rounds to exactly 3.0, whose ceil is 3 cents — one cent below the
mirrored price's 4 cents. -/
lemma feeChain689_eval : kalshiFeeF64Cents dbl007 dbl0689 2 3 := by
  refine ⟨1261007895663739/9007199254740992, 6950496321635035/72057594037927936,
    1400699483783427/4503599627370496, 1080863910568919/36028797018963968,
    3, ?_, ?_, ?_, ?_, ?_, ?_⟩
  · exact ⟨-3, 5044031582654956, by norm_num [dbl007], by norm_num [dbl007],
      by norm_num, Or.inl ⟨by norm_num [dbl007], by norm_num [dbl007]⟩⟩
  · exact ⟨-4, 6950496321635035, by norm_num [dbl0689], by norm_num [dbl0689],
      by norm_num, Or.inl ⟨by norm_num [dbl0689], by norm_num [dbl0689]⟩⟩
  · exact ⟨-2, 5602797935133708, by norm_num [dbl0689], by norm_num [dbl0689],
      by norm_num, Or.inl ⟨by norm_num [dbl0689], by norm_num [dbl0689]⟩⟩
  · exact ⟨-6, 8646911284551352, by norm_num, by norm_num,
      by norm_num, Or.inl ⟨by norm_num, by norm_num⟩⟩
  · exact ⟨1, 6755399441055744, by norm_num, by norm_num,
      by norm_num, Or.inl ⟨by norm_num, by norm_num⟩⟩
  · rw [show ⌈(3 : ℚ)⌉ = (3:ℤ) by rw [Int.ceil_eq_iff]; norm_num]

/-! ## Claims C2, C3, C8: the float fee deviates from the documented formula -/

/-- C2 (code bug): the Kalshi fee routine does not return
`ceil(0.07·c·p·(1−p)·100)/100` exactly.  At price 0.4 (a 40-cent ask) with
the scorer's reference count of 100 contracts, the program's IEEE-double
evaluation — the `isNearestF64` rounding chain starting from the doubles of
0.07 and 40/100 — yields 168.00000000000003 and ceils to 169 cents
(fee 1.69), while the documented formula, embedded exactly as
`kalshi_fee`/`specFee`, yields 168 cents (fee 1.68). -/
theorem claim_C2_fee_formula_float_bug :
    isNearestF64 (7/100) dbl007 ∧
    isNearestF64 (40/100) dbl04 ∧
    kalshiFeeF64Cents dbl007 dbl04 100 169 ∧
    kalshi_fee (2/5) 100 = 168/100 ∧
    specFee (2/5) 100 = 168/100 ∧
    (169 : ℚ)/100 ≠ 168/100 := by
  refine ⟨dbl007_rounds, dbl04_rounds, feeChain04_eval, ?_, ?_, by norm_num⟩
  · unfold kalshi_fee
    norm_num
  · unfold specFee
    norm_num

/-- C3 (code bug): at the spec's example pair the float scorer computes
strategy-1 margin `dblMargin` = 0.13310000000000000597… (repr 0.1331), not
the claimed 0.1332: the float fee is 169 cents, so the cost rounds to
0.8669 and the margin to `dblMargin`.  The exact-arithmetic scorer
(`strat1Arb` over the documented fee) yields 1332/10000, as the claim and
the spec's derivation intend. -/
theorem claim_C3_example_margin_float_bug :
    kalshiFeeF64Cents dbl007 dbl04 100 169 ∧
    strat1MarginF64 dbl04 dbl045 169 dblMargin ∧
    dblMargin ≠ 1332/10000 ∧
    strat1Arb exampleKalshi (45/100) = 1332/10000 := by
  refine ⟨feeChain04_eval, strat1Margin_eval, by norm_num [dblMargin], ?_⟩
  exact strat1Arb_example exampleKalshi rfl

/-- C8 (code bug): the program's float fee is not symmetric around 0.5.  At
price p = 0.3110177634953864 (the double `dbl0311`) with 2 contracts the
rounding chain gives 4 cents, but at the complementary price
fl(1 − p) = `dbl0689` it gives 3 cents.  The exact-arithmetic `kalshi_fee`
the claim describes is symmetric. -/
theorem claim_C8_fee_symmetry_float_bug :
    isNearestF64 (3110177634953864/10000000000000000) dbl0311 ∧
    isNearestF64 (1 - dbl0311) dbl0689 ∧
    kalshiFeeF64Cents dbl007 dbl0311 2 4 ∧
    kalshiFeeF64Cents dbl007 dbl0689 2 3 ∧
    (4 : ℚ)/100 ≠ 3/100 ∧
    (∀ p : ℚ, kalshi_fee p 2 = kalshi_fee (1 - p) 2) := by
  refine ⟨dbl0311_rounds, dbl0689_rounds, feeChain311_eval, feeChain689_eval,
    by norm_num, ?_⟩
  intro p
  unfold kalshi_fee
  have h : (0.07:ℚ) * 2 * p * (1 - p) * 100 =
      (0.07:ℚ) * 2 * (1 - p) * (1 - (1 - p)) * 100 := by ring
  rw [h]

end PredArbs
